import Mathlib

/-!
Verification development for the RagByKilo ingestion pipeline
(`src/url_processor.py`, `src/chroma_manager.py`).

Texts are modelled as `List Char`.  The repository delegates the actual
text splitting to `langchain.text_splitter.RecursiveCharacterTextSplitter`,
which is not part of the repository sources; the splitter below is
modelled from the specification (§4.1), which describes the algorithm
that the repository relies on.  Everything else is translated directly
from the Python sources.
-/

namespace RagByKilo

abbrev Str := List Char

/-- Whitespace test, modelling Python `str.isspace` / `str.strip` boundaries. -/
def isWs (c : Char) : Bool := c.isWhitespace

/-- Model of Python `str.strip()`: drop leading and trailing whitespace. -/
def pyStrip (s : Str) : Str :=
  ((s.dropWhile isWs).reverse.dropWhile isWs).reverse

/-- The trailing `overlap` characters of a string (the overlap seed of §4.1 step 3). -/
def overlapTail (overlap : Nat) (s : Str) : Str := s.drop (s.length - overlap)

/-- Find the first occurrence of (non-empty) `sep` in `text`, returning the part
before it and the part after it. -/
def findSep (sep : Str) : Str → Option (Str × Str)
  | [] => none
  | c :: rest =>
    if sep.isPrefixOf (c :: rest) then some ([], (c :: rest).drop sep.length)
    else
      match findSep sep rest with
      | some (pre, post) => some (c :: pre, post)
      | none => none

/-- Split on `sep` keeping the separator attached to the preceding piece
(§4.1 step 2), with explicit fuel so that the definition is structural. -/
def splitKeepF (sep : Str) : Nat → Str → List Str
  | 0, text => [text]
  | fuel + 1, text =>
    match findSep sep text with
    | none => [text]
    | some (pre, post) => (pre ++ sep) :: splitKeepF sep fuel post

/-- Split `text` on `sep`, keeping the separator attached to each piece but the last. -/
def splitKeep (sep : Str) (text : Str) : List Str :=
  splitKeepF sep (text.length + 1) text

/-- Hard character cut into pieces of `max 1 step` characters (§4.1 step 4 fallback),
with fuel making the recursion structural. -/
def hardCutF (step : Nat) : Nat → Str → List Str
  | _, [] => []
  | 0, text => [text]
  | fuel + 1, text =>
    text.take (max 1 step) :: hardCutF step fuel (text.drop (max 1 step))

/-- Hard character cut every `step` characters. -/
def hardCut (step : Nat) (text : Str) : List Str := hardCutF step text.length text

/-- The seed of the buffer that follows spliced-in sub-chunks: the overlap
tail of the last sub-chunk (empty when there are none). -/
def seedOf (overlap : Nat) (subs : List Str) : Str :=
  match subs.getLast? with
  | some c => overlapTail overlap c
  | none => []

/-- The buffer that starts after a chunk is emitted on overflow (§4.1 step 3):
the overlap tail of the emitted chunk followed by the pending piece, or the
piece alone when even that would overflow. -/
def nextBuffer (target overlap : Nat) (buffer piece : Str) : Str :=
  if (overlapTail overlap buffer).length + piece.length ≤ target then
    overlapTail overlap buffer ++ piece
  else piece

/-- Greedy packing of pieces into chunks of at most `target` characters
(§4.1 step 3), seeding each new buffer with the overlap tail of the chunk
just emitted.  An oversized piece (one that does not fit even in an empty
buffer) is handed to `recurse`, and the resulting sub-chunks are spliced
into the output in place (§4.1 step 4); packing then continues with a
buffer seeded from the last sub-chunk. -/
def packLoop (target overlap : Nat) (recurse : Str → List Str) :
    Str → List Str → List Str
  | buffer, [] => if buffer.isEmpty then [] else [buffer]
  | buffer, piece :: rest =>
    if target < piece.length then
      (if buffer.isEmpty then [] else [buffer]) ++ recurse piece ++
        packLoop target overlap recurse (seedOf overlap (recurse piece)) rest
    else if buffer.length + piece.length ≤ target then
      packLoop target overlap recurse (buffer ++ piece) rest
    else
      buffer :: packLoop target overlap recurse
        (nextBuffer target overlap buffer piece) rest

/-- Modelled from the spec: the recursive separator-priority splitter of §4.1
(the repository calls langchain's `RecursiveCharacterTextSplitter`, which is
not in the sources).  The first separator of the priority list that occurs in
the text is used (the empty separator splits between every character); an
oversized piece recurses with the remaining separators; an exhausted
separator list falls back to a hard cut every `target - overlap` characters. -/
def splitSeps (target overlap : Nat) : List Str → Str → List Str
  | [], text => hardCut (target - overlap) text
  | sep :: rest, text =>
    if sep.isEmpty then
      packLoop target overlap (splitSeps target overlap rest) [] (text.map (fun c => [c]))
    else if (findSep sep text).isSome then
      packLoop target overlap (splitSeps target overlap rest) [] (splitKeep sep text)
    else
      splitSeps target overlap rest text

/-- `split(text, policy)` of §4.1: run the separator splitter, then drop
chunks that are empty or whitespace-only (§4.1 step 6). -/
def splitText (target overlap : Nat) (seps : List Str) (text : Str) : List Str :=
  (splitSeps target overlap seps text).filter (fun c => !(pyStrip c).isEmpty)

/-- The separator priority list built in `URLChunker.__init__` and
`URLChunker.process_url` (src/url_processor.py lines 248-258 and 290). -/
def procSeparators : List Str :=
  [['\n', '\n'], ['\n'], ['.', ' '], ['!', ' '], ['?', ' '], [';', ' '],
   [',', ' '], [' '], []]

/-- The default separator list of `RecursiveCharacterTextSplitter`, used by
`ChromaDBManager.add_texts` (src/chroma_manager.py lines 143-147), which
passes no `separators` argument. -/
def lcDefaultSeparators : List Str := [['\n', '\n'], ['\n'], [' '], []]

/-! ## Content addressing (`URLChunker.create_chunks`, lines 364-368) -/

/-- A decimal digit character, as produced by Python string formatting of an int. -/
def digitChar (d : Nat) : Char := Char.ofNat (48 + d)

/-- Decimal digits of `n` (most significant first, empty for 0), with fuel
making the recursion structural. -/
def natCharsAux : Nat → Nat → Str
  | 0, _ => []
  | fuel + 1, n =>
    if n = 0 then [] else natCharsAux fuel (n / 10) ++ [digitChar (n % 10)]

/-- The decimal representation of `n`, as produced by Python `f"{n}"`. -/
def natChars (n : Nat) : Str :=
  if n = 0 then ['0'] else natCharsAux (n + 1) n

/-- Decimal value of a digit string (left fold), used to invert `natChars`. -/
def charsToNat (s : Str) : Nat :=
  s.foldl (fun a c => a * 10 + (c.toNat - 48)) 0

/-- The string fed to the hash in `URLChunker.create_chunks`
(line 366-368): `f"{metadata['url']}_{i}_{chunk}"`. -/
def encodeChunkRef (url : Str) (i : Nat) (chunk : Str) : Str :=
  url ++ '_' :: (natChars i ++ '_' :: chunk)

/-! ## Page metadata and chunk assembly (`URLChunker`) -/

/-- The metadata dictionary built by `WebContentExtractor.extract_metadata`
(lines 133-193): a fixed set of string fields. -/
structure PageMetadata where
  url : Str
  processedDate : Str
  title : Str
  description : Str
  keywords : Str
  author : Str
  language : Str
deriving DecidableEq, Repr

/-- The per-chunk metadata dictionary built in `create_chunks`
(lines 370-376): the page metadata plus `chunk_index`, `chunk_size`
and, when a source name is given, `source`. -/
structure ChunkMetadata where
  base : PageMetadata
  chunkIndex : Nat
  chunkSize : Nat
  source : Option Str
deriving DecidableEq, Repr

/-- The `{'chunks': ..., 'ids': ..., 'metadatas': ...}` dictionary
returned by `create_chunks` (lines 384-388). -/
structure ChunksData where
  chunks : List Str
  ids : List Str
  metadatas : List ChunkMetadata
deriving DecidableEq, Repr

/-- The text splitter configuration carried by `URLChunker.text_splitter`. -/
structure SplitterCfg where
  chunkSize : Nat
  chunkOverlap : Nat
  separators : List Str
deriving DecidableEq, Repr

/-- The splitter installed by `URLChunker.__init__` (lines 244-259). -/
def initSplitterCfg : SplitterCfg := ⟨1000, 200, procSeparators⟩

/-- `URLChunker.create_chunks` (lines 343-392): split the text with the
current splitter, derive each chunk's id by hashing
`f"{metadata['url']}_{i}_{chunk}"`, and build per-chunk metadata.  The
SHA-256 hex digest (`hashlib.sha256(...).hexdigest()`) is an external
library function and is passed in as an arbitrary function `hash`. -/
def createChunks (hash : Str → Str) (cfg : SplitterCfg) (text : Str)
    (metadata : PageMetadata) (sourceName : Option Str) : ChunksData :=
  let textChunks := splitText cfg.chunkSize cfg.chunkOverlap cfg.separators text
  { chunks := textChunks
    ids := textChunks.enum.map fun ic =>
      hash (encodeChunkRef metadata.url ic.1 ic.2)
    metadatas := textChunks.enum.map fun ic =>
      { base := metadata, chunkIndex := ic.1, chunkSize := ic.2.length
        source := sourceName } }

/-! ## Store model (ChromaDB collections with id-keyed idempotent upsert)

The external store (`chromadb`) is modelled as association lists keyed by
id: `collection.upsert(documents, ids, metadatas)` replaces the record of
an id that is already present and appends records with fresh ids, later
entries of one call overwriting earlier ones with the same id. -/

/-- A collection: records keyed by id. -/
abbrev Store (β : Type) := List (Str × β)

/-- Upsert a single record: replace in place if the id exists, else append. -/
def upsertOne (s : Store β) (id : Str) (v : β) : Store β :=
  if s.any (fun p => decide (p.1 = id)) then
    s.map (fun p => if p.1 = id then (id, v) else p)
  else s ++ [(id, v)]

/-- Upsert a batch of records in order (later entries win on id collision). -/
def upsertMany (s : Store β) (kvs : List (Str × β)) : Store β :=
  kvs.foldl (fun acc kv => upsertOne acc kv.1 kv.2) s

/-- The record currently stored under an id, if any. -/
def storeLookup (s : Store β) (k : Str) : Option β :=
  (s.find? (fun p => decide (p.1 = k))).map Prod.snd

/-- The value stored per chunk by `save_to_chroma`: document text and metadata. -/
abbrev RecordVal := Str × ChunkMetadata

/-- The ChromaDB client state: named collections. -/
abbrev Collections := List (Str × Store RecordVal)

/-- `ChromaDBManager.get_or_create_collection` (chroma_manager.py lines 64-82). -/
def getOrCreateCollection (cs : Collections) (name : Str) : Collections :=
  if cs.any (fun p => decide (p.1 = name)) then cs else cs ++ [(name, [])]

/-- The records of the named collection (empty if absent). -/
def collGet (cs : Collections) (name : Str) : Store RecordVal :=
  ((cs.find? (fun p => decide (p.1 = name))).map Prod.snd).getD []

/-- Replace the records of the named collection. -/
def collSet (cs : Collections) (name : Str) (col : Store RecordVal) : Collections :=
  cs.map (fun p => if p.1 = name then (name, col) else p)

/-- The records upserted by `save_to_chroma`: ids zipped with documents and
metadatas (url_processor.py lines 410-414). -/
def chunkRecords (cd : ChunksData) : Store RecordVal :=
  cd.ids.zip (cd.chunks.zip cd.metadatas)

/-- `URLChunker.save_to_chroma` (lines 394-421): get or create the collection,
then upsert all chunk records into it. -/
def saveToChroma (cs : Collections) (name : Str) (cd : ChunksData) : Collections :=
  let cs1 := getOrCreateCollection cs name
  collSet cs1 name (upsertMany (collGet cs1 name) (chunkRecords cd))

/-! ## The ingestion pipeline (`URLChunker.process_url` and
`URLChunker.process_multiple_urls`) -/

/-- The outcome of the external fetch/extract steps for one URL: `fetch_content`
and `extract_text` may raise (modelled as `Except`), `extract_metadata`
returns a metadata dictionary even on error (lines 182-193). -/
structure PageOutcome where
  fetch : Except Str Unit
  metadata : PageMetadata
  textContent : Except Str Str

/-- The result dictionary returned by `process_url` (success: lines 319-326,
failure: lines 303-309 and 336-341).  `processing_time` and the echoed
metadata of the success dictionary are not modelled (wall-clock time is
external). -/
structure UrlResult where
  success : Bool
  error : Option Str
  url : Str
  chunksCreated : Nat
  totalCharacters : Nat
deriving DecidableEq, Repr

/-- The mutable state of a `URLChunker` paired with its `ChromaDBManager`:
the `text_splitter` attribute and the store. -/
structure PipelineState where
  cfg : SplitterCfg
  store : Collections
deriving DecidableEq, Repr

/-- Lines 284-291 of `process_url`: the shared `self.text_splitter` is
replaced only when the requested parameters differ from the defaults
`(1000, 200)`; otherwise whatever splitter is currently installed stays. -/
def updateCfg (cfg : SplitterCfg) (size overlap : Nat) : SplitterCfg :=
  if size ≠ 1000 ∨ overlap ≠ 200 then ⟨size, overlap, procSeparators⟩ else cfg

/-- The error message of the empty-content failure path (line 306). -/
def emptyContentMsg : Str := "Пустой текстовый контент".toList

/-- The failure dictionary of `process_url` (lines 303-309, 336-341). -/
def failureResult (url : Str) (e : Str) : UrlResult :=
  ⟨false, some e, url, 0, 0⟩

/-- `URLChunker.process_url` (lines 261-341): update the splitter, fetch,
extract metadata and text, return the empty-content failure before any store
interaction when the text is whitespace-only, otherwise chunk and save.  Any
exception of a step (`fetch_content`, `extract_text`, the store write,
modelled by `storeOutcome`) is caught by the `except` clause at line 334 and
converted into the failure dictionary; nothing propagates.  On a store-write
failure the collection has already been created but the model records no
partial upsert. -/
def processUrl (hash : Str → Str) (page : PageOutcome)
    (storeOutcome : Except Str Unit) (url collectionName : Str)
    (size overlap : Nat) (sourceName : Option Str)
    (st : PipelineState) : UrlResult × PipelineState :=
  let cfg := updateCfg st.cfg size overlap
  match page.fetch with
  | .error e => (failureResult url e, ⟨cfg, st.store⟩)
  | .ok _ =>
    match page.textContent with
    | .error e => (failureResult url e, ⟨cfg, st.store⟩)
    | .ok text =>
      if (pyStrip text).isEmpty then
        (failureResult url emptyContentMsg, ⟨cfg, st.store⟩)
      else
        let cd := createChunks hash cfg text page.metadata sourceName
        match storeOutcome with
        | .error e =>
          (failureResult url e, ⟨cfg, getOrCreateCollection st.store collectionName⟩)
        | .ok _ =>
          (⟨true, none, url, cd.chunks.length, text.length⟩,
           ⟨cfg, saveToChroma st.store collectionName cd⟩)

/-- The message of the first failing step of one `process_url` run, in the
order the steps execute (fetch, text extraction, store write); `none` when no
step raises (the whitespace-only early return is not a raised step). -/
def pipelineFirstError (page : PageOutcome) (storeOutcome : Except Str Unit) :
    Option Str :=
  match page.fetch with
  | .error e => some e
  | .ok _ =>
    match page.textContent with
    | .error e => some e
    | .ok text =>
      if (pyStrip text).isEmpty then none
      else
        match storeOutcome with
        | .error e => some e
        | .ok _ => none

/-- One batch item of `process_multiple_urls`: a URL with the outcomes of its
external steps. -/
structure UrlJob where
  url : Str
  page : PageOutcome
  storeOutcome : Except Str Unit

/-- `URLChunker.process_multiple_urls` (lines 423-472): process the URLs in
order, threading the shared pipeline state, appending one result per URL.
(`process_url` returns its failures instead of raising, so the `except`
branch of the loop is dead; the inter-item `time.sleep(1)` is external.) -/
def processMultipleUrls (hash : Str → Str) (collectionName : Str)
    (size overlap : Nat) (sourceName : Option Str) :
    List UrlJob → PipelineState → List UrlResult × PipelineState
  | [], st => ([], st)
  | j :: rest, st =>
    let r := processUrl hash j.page j.storeOutcome j.url collectionName
      size overlap sourceName st
    let rs := processMultipleUrls hash collectionName size overlap sourceName
      rest r.2
    (r.1 :: rs.1, rs.2)

/-! ## `ChromaDBManager.add_texts` (chroma_manager.py lines 113-185):
content-only addressing -/

/-- A loosely-typed metadata dictionary (string keys and values, insertion
ordered, as a Python dict). -/
abbrev Dict := List (Str × Str)

/-- Python dict assignment `d[k] = v`: replace in place or append. -/
def dictInsert (d : Dict) (k v : Str) : Dict :=
  if d.any (fun p => decide (p.1 = k)) then
    d.map (fun p => if p.1 = k then (k, v) else p)
  else d ++ [(k, v)]

/-- The `"source"` metadata key. -/
def srcKey : Str := "source".toList

/-- One record produced by `add_texts`: (id, (chunk text, metadata)). -/
abbrev TextRecord := Str × (Str × Dict)

/-- The flat list of records built by the loop of `add_texts` (lines 153-167):
each input text is split with the langchain default separators, each chunk's
id is the hash of the chunk text alone (line 158), and its metadata is a copy
of the text's metadata entry (or `{}`), with `source` set when given. -/
def addTextsRecords (hash : Str → Str) (size overlap : Nat)
    (texts : List Str) (metadatas : Option (List Dict))
    (sourceName : Option Str) : List TextRecord :=
  (texts.enum).flatMap fun it =>
    (splitText size overlap lcDefaultSeparators it.2).map fun ch =>
      let m0 := match metadatas with
        | some ms => if h : it.1 < ms.length then ms.get ⟨it.1, h⟩ else []
        | none => []
      let m := match sourceName with
        | some s => dictInsert m0 srcKey s
        | none => m0
      (hash ch, (ch, m))

/-- `ChromaDBManager.add_texts` restricted to its effect on the target
collection (lines 169-178): if no chunks were produced nothing happens,
otherwise all records are upserted in one call. -/
def addTexts (hash : Str → Str) (size overlap : Nat) (texts : List Str)
    (metadatas : Option (List Dict)) (sourceName : Option Str)
    (store : Store (Str × Dict)) : Store (Str × Dict) :=
  let records := addTextsRecords hash size overlap texts metadatas sourceName
  if records.isEmpty then store else upsertMany store records

/-! ## Concrete fixtures used by witnesses -/

/-- Sample page metadata used by concrete witnesses. -/
def sampleMeta : PageMetadata :=
  { url := ['u'], processedDate := ['1'], title := [], description := [],
    keywords := [], author := [], language := [] }

/-- The same page on a later run: only `processed_date` differs. -/
def sampleMeta2 : PageMetadata :=
  { sampleMeta with processedDate := ['2'] }

/-- A successfully fetched page with non-empty text. -/
def samplePage : PageOutcome :=
  { fetch := .ok (), metadata := sampleMeta,
    textContent := .ok "hello world".toList }

/-- A successfully fetched page whose extracted text is whitespace-only. -/
def wsPage : PageOutcome :=
  { fetch := .ok (), metadata := sampleMeta, textContent := .ok [' ', ' '] }

/-- A page whose fetch raises. -/
def fetchFailPage : PageOutcome :=
  { fetch := .error "boom".toList, metadata := sampleMeta,
    textContent := .ok ['h'] }

/-- A page whose extracted text is the eight characters `abcdefgh`. -/
def page8 : PageOutcome :=
  { fetch := .ok (), metadata := sampleMeta,
    textContent := .ok "abcdefgh".toList }

/-- A page whose extracted text is the two characters `ab`. -/
def pageAB : PageOutcome :=
  { fetch := .ok (), metadata := sampleMeta, textContent := .ok ['a', 'b'] }

end RagByKilo

section scratch
open RagByKilo
example : splitText 5 2 [['.', ' '], [' '], []] "A. B. C. D.".toList =
    ["A. ".toList, ". B. ".toList, ". C. ".toList, ". D.".toList] := by decide
example : splitText 5 0 procSeparators "abcdefgh".toList =
    ["abcde".toList, "fgh".toList] := by decide
example : splitText 1000 200 procSeparators "abcdefgh".toList =
    ["abcdefgh".toList] := by decide
example : splitText 0 0 procSeparators "ab".toList = [['a'], ['b']] := by decide
end scratch

namespace RagByKilo

/-! ## Size bound of the splitter (claim C1) -/

theorem overlapTail_length_le (k : Nat) (s : Str) :
    (overlapTail k s).length ≤ k := by
  simp only [overlapTail, List.length_drop]
  omega

theorem seedOf_length_le (overlap : Nat) (subs : List Str) :
    (seedOf overlap subs).length ≤ overlap := by
  unfold seedOf
  cases subs.getLast? with
  | none => simp
  | some c => exact overlapTail_length_le overlap c

theorem nextBuffer_length_le (target overlap : Nat) (buffer piece : Str)
    (hp : piece.length ≤ target) :
    (nextBuffer target overlap buffer piece).length ≤ target := by
  unfold nextBuffer
  split
  next h => simpa using h
  next => exact hp

theorem hardCutF_length_le (step fuel : Nat) (text : Str)
    (hf : text.length ≤ fuel) :
    ∀ c ∈ hardCutF step fuel text, c.length ≤ max 1 step := by
  induction fuel generalizing text with
  | zero =>
    cases text with
    | nil => intro c hc; simp [hardCutF] at hc
    | cons a t => simp at hf
  | succ n ih =>
    cases text with
    | nil => intro c hc; simp [hardCutF] at hc
    | cons a t =>
      intro c hc
      simp only [hardCutF, List.mem_cons] at hc
      rcases hc with rfl | hc
      · simpa using List.length_take_le (max 1 step) (a :: t)
      · refine ih _ ?_ c hc
        simp only [List.length_cons] at hf
        simp only [List.length_drop, List.length_cons]
        omega

theorem hardCut_length_le (step : Nat) (text : Str) :
    ∀ c ∈ hardCut step text, c.length ≤ max 1 step :=
  hardCutF_length_le step text.length text le_rfl

theorem packLoop_length_le (target overlap : Nat) (recurse : Str → List Str)
    (hov : overlap ≤ target)
    (hrec : ∀ p, ∀ c ∈ recurse p, c.length ≤ target) :
    ∀ (pieces : List Str) (buffer : Str), buffer.length ≤ target →
      ∀ c ∈ packLoop target overlap recurse buffer pieces, c.length ≤ target := by
  intro pieces
  induction pieces with
  | nil =>
    intro buffer hb c hc
    simp only [packLoop] at hc
    split at hc
    · simp at hc
    · rw [List.mem_singleton] at hc
      exact hc ▸ hb
  | cons piece rest ih =>
    intro buffer hb c hc
    simp only [packLoop] at hc
    split at hc
    next hlong =>
      simp only [List.append_assoc, List.mem_append] at hc
      rcases hc with hc | hc | hc
      · split at hc
        · simp at hc
        · rw [List.mem_singleton] at hc
          exact hc ▸ hb
      · exact hrec piece c hc
      · exact ih _ (le_trans (seedOf_length_le overlap _) hov) c hc
    next hlong =>
      split at hc
      next hfit =>
        refine ih _ ?_ c hc
        simpa using hfit
      next hfit =>
        rw [List.mem_cons] at hc
        rcases hc with rfl | hc
        · exact hb
        · exact ih _ (nextBuffer_length_le target overlap buffer piece (by omega)) c hc

theorem splitSeps_length_le (target overlap : Nat) (_htgt : 0 < target)
    (hov : overlap < target) :
    ∀ (seps : List Str) (text : Str), ∀ c ∈ splitSeps target overlap seps text,
      c.length ≤ target := by
  intro seps
  induction seps with
  | nil =>
    intro text c hc
    simp only [splitSeps] at hc
    have := hardCut_length_le (target - overlap) text c hc
    omega
  | cons sep rest ih =>
    intro text c hc
    simp only [splitSeps] at hc
    split at hc
    · exact packLoop_length_le target overlap _ (le_of_lt hov)
        (fun p => ih p) _ [] (by simp) c hc
    · split at hc
      · exact packLoop_length_le target overlap _ (le_of_lt hov)
          (fun p => ih p) _ [] (by simp) c hc
      · exact ih text c hc

/-- C1: for every text and every valid chunking policy (positive target size,
overlap smaller than the target, any separator priority list), every chunk
produced by `split` has length at most the target size.  Under the spec's
hard-cut fallback this holds with no exception: even an atomic unit that
survives all separators is hard-cut to pieces of at most
`targetSize - overlap` characters, so the claim's escape clause is never
needed. -/
theorem split_size_bound (target overlap : Nat) (seps : List Str) (text : Str)
    (htgt : 0 < target) (hov : overlap < target) :
    ∀ c ∈ splitText target overlap seps text, c.length ≤ target := by
  intro c hc
  exact splitSeps_length_le target overlap htgt hov seps text c
    (List.mem_of_mem_filter hc)

/-- Witness for C1 at the spec §8 example policy and text. -/
theorem split_size_bound_witness :
    0 < 5 ∧ 2 < 5 ∧
      ∀ c ∈ splitText 5 2 [['.', ' '], [' '], []] "A. B. C. D.".toList,
        c.length ≤ 5 :=
  ⟨by decide, by decide,
    split_size_bound 5 2 [['.', ' '], [' '], []] "A. B. C. D.".toList
      (by decide) (by decide)⟩

/-! ## Injectivity of the hashed encoding (claim C2) -/

theorem charsToNat_append_digit (s : Str) (c : Char) :
    charsToNat (s ++ [c]) = charsToNat s * 10 + (c.toNat - 48) := by
  simp [charsToNat, List.foldl_append]

theorem digitChar_toNat (d : Nat) (hd : d < 10) : (digitChar d).toNat = 48 + d := by
  interval_cases d <;> decide

theorem natCharsAux_val (fuel : Nat) : ∀ n : Nat, n ≤ fuel →
    charsToNat (natCharsAux fuel n) = n := by
  induction fuel with
  | zero =>
    intro n hn
    interval_cases n
    simp [natCharsAux, charsToNat]
  | succ f ih =>
    intro n hn
    by_cases h0 : n = 0
    · subst h0; simp [natCharsAux, charsToNat]
    · have hdiv : n / 10 < n := Nat.div_lt_self (Nat.pos_of_ne_zero h0) (by norm_num)
      rw [natCharsAux, if_neg h0, charsToNat_append_digit,
        ih (n / 10) (by omega), digitChar_toNat _ (Nat.mod_lt n (by norm_num))]
      omega

theorem charsToNat_natChars (n : Nat) : charsToNat (natChars n) = n := by
  unfold natChars
  split
  next h => subst h; decide
  next => exact natCharsAux_val (n + 1) n (Nat.le_succ n)

theorem natChars_inj {m n : Nat} (h : natChars m = natChars n) : m = n := by
  have hm := charsToNat_natChars m
  rw [h, charsToNat_natChars] at hm
  exact hm.symm

theorem digitChar_ne_underscore (d : Nat) (hd : d < 10) : digitChar d ≠ '_' := by
  interval_cases d <;> decide

theorem mem_natCharsAux (fuel : Nat) : ∀ (n : Nat) (c : Char),
    c ∈ natCharsAux fuel n → ∃ d, d < 10 ∧ c = digitChar d := by
  induction fuel with
  | zero => intro n c hc; simp [natCharsAux] at hc
  | succ f ih =>
    intro n c hc
    rw [natCharsAux] at hc
    split at hc
    · simp at hc
    · rw [List.mem_append] at hc
      rcases hc with hc | hc
      · exact ih _ c hc
      · rw [List.mem_singleton] at hc
        exact ⟨n % 10, Nat.mod_lt n (by norm_num), hc⟩

theorem underscore_not_mem_natChars (n : Nat) : '_' ∉ natChars n := by
  unfold natChars
  split
  · decide
  · intro hmem
    obtain ⟨d, hd, hc⟩ := mem_natCharsAux (n + 1) n '_' hmem
    exact digitChar_ne_underscore d hd hc.symm

theorem append_underscore_inj : ∀ (a b x y : Str), '_' ∉ a → '_' ∉ b →
    a ++ '_' :: x = b ++ '_' :: y → a = b ∧ x = y := by
  intro a
  induction a with
  | nil =>
    intro b x y _ hb h
    cases b with
    | nil => simpa using h
    | cons d b' =>
      simp only [List.nil_append, List.cons_append, List.cons.injEq] at h
      exact absurd (h.1 ▸ List.mem_cons_self d b') hb
  | cons c a' ih =>
    intro b x y ha hb h
    cases b with
    | nil =>
      simp only [List.cons_append, List.nil_append, List.cons.injEq] at h
      exact absurd (h.1 ▸ List.mem_cons_self c a') ha
    | cons d b' =>
      simp only [List.cons_append, List.cons.injEq] at h
      obtain ⟨h1, h2⟩ := ih b' x y (fun hm => ha (List.mem_cons_of_mem c hm))
        (fun hm => hb (List.mem_cons_of_mem d hm)) h.2
      exact ⟨by rw [h.1, h1], h2⟩

/-- C2 fails as stated: the delimiter `_` of
`f"{metadata['url']}_{i}_{chunk}"` can occur in a legal URL, so two distinct
(documentRef, chunkIndex, chunkText) triples can feed the identical string to
the hash: `("a_1", 0, "x")` and `("a", 1, "0_x")` both encode to `"a_1_0_x"`. -/
theorem encodeChunkRef_not_injective :
    encodeChunkRef ['a', '_', '1'] 0 ['x'] =
        encodeChunkRef ['a'] 1 ['0', '_', 'x'] ∧
      ¬(['a', '_', '1'] = ['a'] ∧ (0 : Nat) = 1 ∧ ['x'] = ['0', '_', 'x']) := by
  decide

/-- C2 (amended): the encoding fed to the hash is injective on triples whose
documentRef contains no underscore: for such inputs, equal delimited
concatenations force equal documentRefs, chunk indices and chunk texts (the
decimal index and the `_` delimiter cannot be confused because the decimal
digits are underscore-free). -/
theorem encodeChunkRef_inj_of_no_underscore
    (u u' : Str) (i i' : Nat) (c c' : Str)
    (hu : '_' ∉ u) (hu' : '_' ∉ u')
    (h : encodeChunkRef u i c = encodeChunkRef u' i' c') :
    u = u' ∧ i = i' ∧ c = c' := by
  unfold encodeChunkRef at h
  obtain ⟨h1, h2⟩ := append_underscore_inj u u' _ _ hu hu' h
  obtain ⟨h3, h4⟩ := append_underscore_inj _ _ c c'
    (underscore_not_mem_natChars i) (underscore_not_mem_natChars i') h2
  exact ⟨h1, natChars_inj h3, h4⟩

/-- Witness for the amended C2 at concrete underscore-free inputs. -/
theorem encodeChunkRef_inj_witness :
    ('_' ∉ ['a']) ∧ ('_' ∉ ['a']) ∧
      encodeChunkRef ['a'] 7 ['z'] = encodeChunkRef ['a'] 7 ['z'] ∧
      (['a'] = ['a'] ∧ (7 : Nat) = 7 ∧ ['z'] = ['z']) :=
  ⟨by decide, by decide, by decide,
    encodeChunkRef_inj_of_no_underscore ['a'] ['a'] 7 7 ['z'] ['z']
      (by decide) (by decide) (by decide)⟩

/-! ## Determinism of the content addresser (claim C8) -/

/-- C8: the content addresser is deterministic: the chunk ids produced by
`create_chunks` are a function of the splitter configuration, the text and
the document's url alone — in particular they do not depend on the rest of
the page metadata (which contains the run-dependent `processed_date`) nor on
the source name, so recomputing the ids for the same (documentRef,
chunkIndex, chunkText) triples, in the same run or across runs, yields the
identical digests. -/
theorem createChunks_ids_deterministic (hash : Str → Str) (cfg : SplitterCfg)
    (text : Str) (m m' : PageMetadata) (s s' : Option Str)
    (hurl : m.url = m'.url) :
    (createChunks hash cfg text m s).ids =
      (createChunks hash cfg text m' s').ids := by
  simp [createChunks, hurl]

/-- Witness for C8: two runs over the same url whose remaining metadata
(`processed_date`) differs produce the same ids. -/
theorem createChunks_ids_deterministic_witness :
    sampleMeta.url = sampleMeta2.url ∧
      (createChunks id initSplitterCfg "hi".toList sampleMeta none).ids =
        (createChunks id initSplitterCfg "hi".toList sampleMeta2 (some ['s'])).ids :=
  ⟨rfl, createChunks_ids_deterministic id initSplitterCfg "hi".toList
    sampleMeta sampleMeta2 none (some ['s']) rfl⟩

/-! ## Empty extracted text: failure before any store interaction (claim C10) -/

/-- C10: when the extracted text is empty or whitespace-only, `process_url`
returns the failure dictionary (success `False`, the empty-content error
message, `chunks_created = 0`) before `create_chunks` and `save_to_chroma`
run: the store — including its set of collections — is exactly the one from
before the call, so no collection is created and no upsert is issued.  (The
shared splitter attribute has already been updated by lines 284-291, which
run first.) -/
theorem processUrl_empty_text (hash : Str → Str) (page : PageOutcome)
    (so : Except Str Unit) (url coll : Str) (size overlap : Nat)
    (sn : Option Str) (st : PipelineState) (t : Str)
    (hfetch : page.fetch = .ok ()) (htext : page.textContent = .ok t)
    (hws : (pyStrip t).isEmpty) :
    processUrl hash page so url coll size overlap sn st =
      (failureResult url emptyContentMsg,
        ⟨updateCfg st.cfg size overlap, st.store⟩) := by
  unfold processUrl
  rw [hfetch, htext]
  simp [hws]

/-- Witness for C10 on a whitespace-only page. -/
theorem processUrl_empty_text_witness :
    wsPage.fetch = .ok () ∧ wsPage.textContent = .ok [' ', ' '] ∧
      (pyStrip [' ', ' ']).isEmpty = true ∧
      processUrl id wsPage (.ok ()) ['u'] ['c'] 1000 200 none
          ⟨initSplitterCfg, []⟩ =
        (failureResult ['u'] emptyContentMsg,
          ⟨updateCfg initSplitterCfg 1000 200, []⟩) :=
  ⟨rfl, rfl, by decide,
    processUrl_empty_text id wsPage (.ok ()) ['u'] ['c'] 1000 200 none
      ⟨initSplitterCfg, []⟩ [' ', ' '] rfl rfl (by decide)⟩

/-! ## Step failures become structured results (claim C6) -/

/-- C6: whenever a step of a single-document ingestion raises — the fetch,
the text extraction, or the store write (`pipelineFirstError` is the message
of the first step that raises, in execution order) — `process_url` returns
the structured failure dictionary carrying exactly that error message, with
`success = False` and `chunks_created = 0`; the exception is caught by the
`except` clause at the pipeline boundary and the call still returns a value
(in this total model every execution path produces a result dictionary, so
nothing propagates). -/
theorem processUrl_failure_result (hash : Str → Str) (page : PageOutcome)
    (so : Except Str Unit) (url coll : Str) (size overlap : Nat)
    (sn : Option Str) (st : PipelineState) (e : Str)
    (h : pipelineFirstError page so = some e) :
    (processUrl hash page so url coll size overlap sn st).1 =
        failureResult url e ∧
      (processUrl hash page so url coll size overlap sn st).1.success = false ∧
      (processUrl hash page so url coll size overlap sn st).1.chunksCreated = 0 ∧
      (processUrl hash page so url coll size overlap sn st).1.error = some e := by
  have hmain : (processUrl hash page so url coll size overlap sn st).1 =
      failureResult url e := by
    cases hf : page.fetch with
    | error e1 =>
      simp only [pipelineFirstError, hf, Option.some.injEq] at h
      simp [processUrl, hf, h]
    | ok u =>
      cases ht : page.textContent with
      | error e1 =>
        simp only [pipelineFirstError, hf, ht, Option.some.injEq] at h
        simp [processUrl, hf, ht, h]
      | ok t =>
        cases hws : (pyStrip t).isEmpty with
        | true => simp [pipelineFirstError, hf, ht, hws] at h
        | false =>
          cases hso : so with
          | error e1 =>
            simp [pipelineFirstError, hf, ht, hws, hso] at h
            simp [processUrl, hf, ht, hws, hso, h]
          | ok v => simp [pipelineFirstError, hf, ht, hws, hso] at h
  exact ⟨hmain, by simp [hmain, failureResult], by simp [hmain, failureResult],
    by simp [hmain, failureResult]⟩

/-- Witness for C6 on a page whose fetch raises. -/
theorem processUrl_failure_result_witness :
    pipelineFirstError fetchFailPage (.ok ()) = some "boom".toList ∧
      (processUrl id fetchFailPage (.ok ()) ['u'] ['c'] 1000 200 none
          ⟨initSplitterCfg, []⟩).1 = failureResult ['u'] "boom".toList :=
  ⟨rfl,
    (processUrl_failure_result id fetchFailPage (.ok ()) ['u'] ['c'] 1000 200
      none ⟨initSplitterCfg, []⟩ "boom".toList rfl).1⟩

/-! ## Store lemmas: keys, counts and lookups under idempotent upsert -/

theorem upsertOne_cond {β : Type} (s : Store β) (k : Str) :
    (s.any (fun p => decide (p.1 = k)) = true) ↔ k ∈ s.map Prod.fst := by
  rw [List.any_eq_true]
  constructor
  · rintro ⟨p, hp, hdec⟩
    exact List.mem_map.2 ⟨p, hp, of_decide_eq_true hdec⟩
  · rintro hm
    obtain ⟨p, hp, he⟩ := List.mem_map.1 hm
    exact ⟨p, hp, decide_eq_true he⟩

theorem upsertOne_keys {β : Type} (s : Store β) (k : Str) (v : β) :
    (upsertOne s k v).map Prod.fst =
      if k ∈ s.map Prod.fst then s.map Prod.fst else s.map Prod.fst ++ [k] := by
  unfold upsertOne
  by_cases h : k ∈ s.map Prod.fst
  · rw [if_pos ((upsertOne_cond s k).2 h), if_pos h, List.map_map]
    apply List.map_congr_left
    intro p _
    by_cases hp : p.1 = k <;> simp [hp]
  · rw [if_neg (fun hc => h ((upsertOne_cond s k).1 hc)), if_neg h]
    simp

theorem upsertOne_length_of_mem {β : Type} (s : Store β) (k : Str) (v : β)
    (h : k ∈ s.map Prod.fst) : (upsertOne s k v).length = s.length := by
  unfold upsertOne
  rw [if_pos ((upsertOne_cond s k).2 h), List.length_map]

theorem mem_keys_upsertOne {β : Type} (s : Store β) (k : Str) (v : β) (k' : Str)
    (h : k' ∈ s.map Prod.fst ∨ k' = k) :
    k' ∈ (upsertOne s k v).map Prod.fst := by
  rw [upsertOne_keys]
  split
  next hin =>
    rcases h with h | rfl
    · exact h
    · exact hin
  next hin =>
    rcases h with h | rfl
    · exact List.mem_append_left _ h
    · exact List.mem_append_right _ (List.mem_singleton.2 rfl)

theorem upsertMany_cons {β : Type} (s : Store β) (kv : Str × β)
    (rest : List (Str × β)) :
    upsertMany s (kv :: rest) = upsertMany (upsertOne s kv.1 kv.2) rest := rfl

theorem mem_keys_upsertMany {β : Type} (kvs : List (Str × β)) :
    ∀ (s : Store β) (k' : Str), k' ∈ s.map Prod.fst →
      k' ∈ (upsertMany s kvs).map Prod.fst := by
  induction kvs with
  | nil => intro s k' h; exact h
  | cons kv rest ih =>
    intro s k' h
    rw [upsertMany_cons]
    exact ih _ k' (mem_keys_upsertOne s kv.1 kv.2 k' (Or.inl h))

theorem batch_keys_upsertMany {β : Type} (kvs : List (Str × β)) :
    ∀ (s : Store β), ∀ kv ∈ kvs, kv.1 ∈ (upsertMany s kvs).map Prod.fst := by
  induction kvs with
  | nil => intro s kv h; simp at h
  | cons kv0 rest ih =>
    intro s kv h
    rw [upsertMany_cons]
    rcases List.mem_cons.1 h with rfl | h
    · exact mem_keys_upsertMany rest _ kv.1
        (mem_keys_upsertOne s kv.1 kv.2 kv.1 (Or.inr rfl))
    · exact ih _ kv h

theorem upsertMany_length_of_keys {β : Type} (kvs : List (Str × β)) :
    ∀ (s : Store β), (∀ kv ∈ kvs, kv.1 ∈ s.map Prod.fst) →
      (upsertMany s kvs).length = s.length := by
  induction kvs with
  | nil => intro s _; rfl
  | cons kv rest ih =>
    intro s h
    rw [upsertMany_cons, ih _ ?_,
      upsertOne_length_of_mem s kv.1 kv.2 (h kv (List.mem_cons_self kv rest))]
    intro kv' h'
    exact mem_keys_upsertOne s kv.1 kv.2 kv'.1
      (Or.inl (h kv' (List.mem_cons_of_mem _ h')))

theorem upsertMany_twice_length {β : Type} (s : Store β)
    (kvs kvs' : List (Str × β))
    (hk : ∀ kv' ∈ kvs', ∃ kv ∈ kvs, kv.1 = kv'.1) :
    (upsertMany (upsertMany s kvs) kvs').length = (upsertMany s kvs).length := by
  apply upsertMany_length_of_keys
  intro kv' h'
  obtain ⟨kv, hkv, heq⟩ := hk kv' h'
  exact heq ▸ batch_keys_upsertMany kvs s kv hkv

theorem keys_getOrCreateCollection (cs : Collections) (name : Str) :
    name ∈ (getOrCreateCollection cs name).map Prod.fst := by
  unfold getOrCreateCollection
  by_cases h : name ∈ cs.map Prod.fst
  · rw [if_pos ((upsertOne_cond cs name).2 h)]; exact h
  · rw [if_neg (fun hc => h ((upsertOne_cond cs name).1 hc))]
    simp

theorem collGet_getOrCreateCollection (cs : Collections) (name : Str) :
    collGet (getOrCreateCollection cs name) name = collGet cs name := by
  unfold getOrCreateCollection collGet
  by_cases h : name ∈ cs.map Prod.fst
  · rw [if_pos ((upsertOne_cond cs name).2 h)]
  · rw [if_neg (fun hc => h ((upsertOne_cond cs name).1 hc)), List.find?_append]
    have hnone : cs.find? (fun p => decide (p.1 = name)) = none := by
      rw [List.find?_eq_none]
      intro p hp hdec
      exact h (List.mem_map.2 ⟨p, hp, by simpa using hdec⟩)
    rw [hnone]
    simp [List.find?_cons]

theorem find?_replace {β : Type} (s : Store β) (k : Str) (v : β) :
    k ∈ s.map Prod.fst →
      (s.map (fun p => if p.1 = k then (k, v) else p)).find?
        (fun p => decide (p.1 = k)) = some (k, v) := by
  induction s with
  | nil => intro h; simp at h
  | cons p s' ih =>
    intro h
    by_cases hp : p.1 = k
    · simp [List.map_cons, hp, List.find?_cons]
    · have h' : k ∈ s'.map Prod.fst := by
        simp only [List.map_cons, List.mem_cons] at h
        rcases h with h | h
        · exact absurd h.symm hp
        · exact h
      simp only [List.map_cons, if_neg hp, List.find?_cons]
      rw [decide_eq_false hp]
      exact ih h'

theorem find?_replace_ne {β : Type} (s : Store β) (k' : Str) (v : β) (k : Str)
    (hne : k' ≠ k) :
    (s.map (fun p => if p.1 = k' then (k', v) else p)).find?
        (fun p => decide (p.1 = k)) =
      s.find? (fun p => decide (p.1 = k)) := by
  induction s with
  | nil => rfl
  | cons p s' ih =>
    by_cases hp : p.1 = k'
    · have hk : ¬ p.1 = k := fun hc => hne (hp ▸ hc)
      simp only [List.map_cons, if_pos hp, List.find?_cons]
      rw [decide_eq_false hne, decide_eq_false hk]
      exact ih
    · simp only [List.map_cons, if_neg hp, List.find?_cons]
      by_cases hk : p.1 = k
      · rw [decide_eq_true hk]
      · rw [decide_eq_false hk]
        exact ih

theorem storeLookup_upsertOne_self {β : Type} (s : Store β) (k : Str) (v : β) :
    storeLookup (upsertOne s k v) k = some v := by
  unfold upsertOne storeLookup
  by_cases h : k ∈ s.map Prod.fst
  · rw [if_pos ((upsertOne_cond s k).2 h), find?_replace s k v h]
    rfl
  · rw [if_neg (fun hc => h ((upsertOne_cond s k).1 hc)), List.find?_append]
    have hnone : s.find? (fun p => decide (p.1 = k)) = none := by
      rw [List.find?_eq_none]
      intro p hp hdec
      exact h (List.mem_map.2 ⟨p, hp, by simpa using hdec⟩)
    rw [hnone]
    simp [List.find?_cons]

theorem storeLookup_upsertOne_ne {β : Type} (s : Store β) (k' : Str) (v : β)
    (k : Str) (hne : k' ≠ k) :
    storeLookup (upsertOne s k' v) k = storeLookup s k := by
  unfold upsertOne storeLookup
  by_cases h : k' ∈ s.map Prod.fst
  · rw [if_pos ((upsertOne_cond s k').2 h), find?_replace_ne s k' v k hne]
  · rw [if_neg (fun hc => h ((upsertOne_cond s k').1 hc)), List.find?_append]
    have hnil : ([(k', v)] : Store β).find? (fun p => decide (p.1 = k)) = none := by
      simp [List.find?_cons, hne]
    rw [hnil]
    simp

theorem collGet_collSet (cs : Collections) (name : Str) (col : Store RecordVal)
    (h : name ∈ cs.map Prod.fst) :
    collGet (collSet cs name col) name = col := by
  unfold collSet collGet
  rw [find?_replace cs name col h]
  rfl

theorem collGet_saveToChroma (cs : Collections) (name : Str) (cd : ChunksData) :
    collGet (saveToChroma cs name cd) name =
      upsertMany (collGet cs name) (chunkRecords cd) := by
  unfold saveToChroma
  rw [collGet_collSet _ _ _ (keys_getOrCreateCollection cs name),
    collGet_getOrCreateCollection]

/-! ## Idempotent re-ingestion (claim C3) -/

theorem updateCfg_idem (cfg : SplitterCfg) (size overlap : Nat) :
    updateCfg (updateCfg cfg size overlap) size overlap =
      updateCfg cfg size overlap := by
  by_cases h : size ≠ 1000 ∨ overlap ≠ 200 <;> simp [updateCfg, h]

/-- C3: ingesting the same document into the same collection a second time
leaves the collection's count unchanged.  The effective splitter
configuration of the second call equals that of the first
(`updateCfg` is idempotent), so the second `create_chunks` produces exactly
the same ids as the first, every record of the second upsert hits an id that
is already present, and the record count of the collection after the second
call equals the count after the first.  This holds on every path of
`process_url` (on the failure paths neither call touches the records). -/
theorem processUrl_reingest_count_unchanged (hash : Str → Str)
    (page : PageOutcome) (url coll : Str) (size overlap : Nat)
    (sn : Option Str) (st : PipelineState) :
    (∀ t : Str,
      (createChunks hash (updateCfg (updateCfg st.cfg size overlap) size overlap)
          t page.metadata sn).ids =
        (createChunks hash (updateCfg st.cfg size overlap) t page.metadata sn).ids) ∧
    (collGet (processUrl hash page (.ok ()) url coll size overlap sn
          (processUrl hash page (.ok ()) url coll size overlap sn st).2).2.store
        coll).length =
      (collGet (processUrl hash page (.ok ()) url coll size overlap sn
          st).2.store coll).length := by
  constructor
  · intro t
    rw [updateCfg_idem]
  · cases hf : page.fetch with
    | error e => simp [processUrl, hf]
    | ok u =>
      cases ht : page.textContent with
      | error e => simp [processUrl, hf, ht]
      | ok t =>
        cases hws : (pyStrip t).isEmpty with
        | true => simp [processUrl, hf, ht, hws]
        | false =>
          simp only [processUrl, hf, ht, hws, Bool.false_eq_true, if_false]
          rw [updateCfg_idem]
          rw [collGet_saveToChroma, collGet_saveToChroma]
          apply upsertMany_twice_length
          intro kv' h'
          exact ⟨kv', h', rfl⟩

/-! ## Content-only addressing in `add_texts` (claim C9) -/

theorem nodup_keys_upsertOne {β : Type} (s : Store β) (k : Str) (v : β)
    (h : (s.map Prod.fst).Nodup) : ((upsertOne s k v).map Prod.fst).Nodup := by
  rw [upsertOne_keys]
  split
  next => exact h
  next hk =>
    refine h.append (List.nodup_singleton k) ?_
    intro a ha hb
    exact hk (List.mem_singleton.1 hb ▸ ha)

theorem nodup_keys_upsertMany {β : Type} (kvs : List (Str × β)) :
    ∀ (s : Store β), (s.map Prod.fst).Nodup →
      ((upsertMany s kvs).map Prod.fst).Nodup := by
  induction kvs with
  | nil => intro s h; exact h
  | cons kv rest ih =>
    intro s h
    rw [upsertMany_cons]
    exact ih _ (nodup_keys_upsertOne s kv.1 kv.2 h)

theorem entries_upsertOne {β : Type} (Q : Str × β → Prop) (s : Store β)
    (k : Str) (v : β) (hs : ∀ e ∈ s, Q e) (hkv : Q (k, v)) :
    ∀ e ∈ upsertOne s k v, Q e := by
  intro e he
  unfold upsertOne at he
  split at he
  · rw [List.mem_map] at he
    obtain ⟨p, hp, hep⟩ := he
    by_cases hpk : p.1 = k
    · rw [if_pos hpk] at hep
      exact hep ▸ hkv
    · rw [if_neg hpk] at hep
      exact hep ▸ hs p hp
  · rw [List.mem_append] at he
    rcases he with he | he
    · exact hs e he
    · rw [List.mem_singleton] at he
      exact he ▸ hkv

theorem entries_upsertMany {β : Type} (Q : Str × β → Prop)
    (kvs : List (Str × β)) :
    ∀ (s : Store β), (∀ e ∈ s, Q e) → (∀ kv ∈ kvs, Q kv) →
      ∀ e ∈ upsertMany s kvs, Q e := by
  induction kvs with
  | nil => intro s hs _ e he; exact hs e he
  | cons kv rest ih =>
    intro s hs hk e he
    rw [upsertMany_cons] at he
    exact ih _ (entries_upsertOne Q s kv.1 kv.2 hs (hk kv (List.mem_cons_self kv rest)))
      (fun kv' h' => hk kv' (List.mem_cons_of_mem _ h')) e he

theorem filter_length_le_one {β : Type} (p : Str × β → Bool) (k : Str) :
    ∀ (l : Store β), (l.map Prod.fst).Nodup →
      (∀ e ∈ l, p e = true → e.1 = k) → (l.filter p).length ≤ 1 := by
  intro l
  induction l with
  | nil => intro _ _; simp
  | cons e l' ih =>
    intro hnd hkey
    rw [List.map_cons, List.nodup_cons] at hnd
    by_cases hp : p e = true
    · have hnil : l'.filter p = [] := by
        rw [List.filter_eq_nil_iff]
        intro x hx hpx
        have hx1 : x.1 = k := hkey x (List.mem_cons_of_mem _ hx) hpx
        have he1 : e.1 = k := hkey e (List.mem_cons_self e l') hp
        exact hnd.1 (by
          rw [he1, ← hx1]
          exact List.mem_map.2 ⟨x, hx, rfl⟩)
      simp [hp, hnil]
    · simp only [List.filter_cons, hp, Bool.false_eq_true, if_false]
      exact ih hnd.2 (fun x hx hpx => hkey x (List.mem_cons_of_mem _ hx) hpx)

theorem storeLookup_upsertMany_of_filter_nil {β : Type} (k : Str)
    (kvs : List (Str × β)) :
    ∀ (s : Store β), kvs.filter (fun kv => decide (kv.1 = k)) = [] →
      storeLookup (upsertMany s kvs) k = storeLookup s k := by
  induction kvs with
  | nil => intro s _; rfl
  | cons kv rest ih =>
    intro s hf
    rw [List.filter_cons] at hf
    by_cases hk : kv.1 = k
    · rw [decide_eq_true hk] at hf
      simp at hf
    · rw [decide_eq_false hk] at hf
      simp only [Bool.false_eq_true, if_false] at hf
      rw [upsertMany_cons, ih _ hf]
      exact storeLookup_upsertOne_ne s kv.1 kv.2 k hk

theorem storeLookup_upsertMany_getLast {β : Type} (k : Str)
    (kvs : List (Str × β)) :
    ∀ (s : Store β) (kv' : Str × β),
      (kvs.filter (fun kv => decide (kv.1 = k))).getLast? = some kv' →
      storeLookup (upsertMany s kvs) k = some kv'.2 := by
  induction kvs with
  | nil => intro s kv' h; simp at h
  | cons kv rest ih =>
    intro s kv' h
    rw [upsertMany_cons]
    by_cases hk : kv.1 = k
    · rw [List.filter_cons, decide_eq_true hk, if_pos rfl] at h
      cases hfl : rest.filter (fun kv => decide (kv.1 = k)) with
      | nil =>
        rw [hfl, List.getLast?_singleton] at h
        rw [storeLookup_upsertMany_of_filter_nil k rest _ hfl]
        have hkv : kv = kv' := by simpa using h
        subst hkv
        subst hk
        exact storeLookup_upsertOne_self s kv.1 kv.2
      | cons x xs =>
        rw [hfl, List.getLast?_cons_cons] at h
        rw [← hfl] at h
        exact ih _ kv' h
    · rw [List.filter_cons, decide_eq_false hk] at h
      simp only [Bool.false_eq_true, if_false] at h
      exact ih _ kv' h

theorem addTextsRecords_key (hash : Str → Str) (size overlap : Nat)
    (texts : List Str) (metas : Option (List Dict)) (sn : Option Str) :
    ∀ r ∈ addTextsRecords hash size overlap texts metas sn,
      r.1 = hash r.2.1 := by
  intro r hr
  unfold addTextsRecords at hr
  rw [List.mem_flatMap] at hr
  obtain ⟨it, _, hr⟩ := hr
  rw [List.mem_map] at hr
  obtain ⟨ch, _, he⟩ := hr
  subst he
  rfl

/-- C9: in the content-only addressing mode of `add_texts`, a chunk's id is a
function of the chunk text alone: every record's id is the hash of its own
chunk text; any two records of the batch with identical text receive the same
id; starting from an empty collection the upsert keeps at most one record per
distinct chunk text; and the stored record under a text's id carries the
metadata of the batch's last occurrence of that text (later occurrence wins).
The last two parts assume the hash is injective (the spec idealizes the
256-bit hash as collision-free). -/
theorem addTexts_content_only (hash : Str → Str)
    (hinj : Function.Injective hash) (size overlap : Nat) (texts : List Str)
    (metas : Option (List Dict)) (sn : Option Str) :
    (∀ r ∈ addTextsRecords hash size overlap texts metas sn,
      r.1 = hash r.2.1) ∧
    (∀ r ∈ addTextsRecords hash size overlap texts metas sn,
      ∀ r' ∈ addTextsRecords hash size overlap texts metas sn,
        r.2.1 = r'.2.1 → r.1 = r'.1) ∧
    (∀ t : Str,
      ((addTexts hash size overlap texts metas sn []).filter
        (fun r => decide (r.2.1 = t))).length ≤ 1) ∧
    (∀ (t : Str) (rv : Str × Dict),
      ((addTextsRecords hash size overlap texts metas sn).filter
        (fun r => decide (r.2.1 = t))).getLast? = some (hash t, rv) →
      storeLookup (addTexts hash size overlap texts metas sn []) (hash t) =
        some rv) := by
  have hkeyinv := addTextsRecords_key hash size overlap texts metas sn
  refine ⟨hkeyinv, ?_, ?_, ?_⟩
  · intro r hr r' hr' htext
    rw [hkeyinv r hr, hkeyinv r' hr', htext]
  · intro t
    simp only [addTexts]
    split
    · simp
    · refine filter_length_le_one _ (hash t) _
        (nodup_keys_upsertMany _ _ (by simp)) ?_
      intro e he hpe
      have hq : e.1 = hash e.2.1 :=
        entries_upsertMany (fun e => e.1 = hash e.2.1) _ _ (by simp)
          hkeyinv e he
      rw [hq, of_decide_eq_true hpe]
  · intro t rv hlast
    have hrecne : addTextsRecords hash size overlap texts metas sn ≠ [] := by
      intro hc
      rw [hc] at hlast
      simp at hlast
    have hfeq : (addTextsRecords hash size overlap texts metas sn).filter
          (fun kv => decide (kv.1 = hash t)) =
        (addTextsRecords hash size overlap texts metas sn).filter
          (fun r => decide (r.2.1 = t)) := by
      apply List.filter_congr
      intro r hr
      rw [hkeyinv r hr]
      apply decide_eq_decide.2
      exact ⟨fun h => hinj h, fun h => by rw [h]⟩
    simp only [addTexts]
    rw [if_neg (by simpa [List.isEmpty_iff] using hrecne)]
    exact storeLookup_upsertMany_getLast (hash t) _ [] (hash t, rv)
      (by rw [hfeq]; exact hlast)

/-- Witness for C9: two identical texts in one batch share one id; the later
text's metadata wins; the identity function is an injective stand-in for the
hash. -/
theorem addTexts_content_only_witness :
    Function.Injective (fun s : Str => s) ∧
      (storeLookup
          (addTexts (fun s : Str => s) 1000 200
            ["hello".toList, "hello".toList]
            (some [[(['k'], ['1'])], [(['k'], ['2'])]]) none [])
          "hello".toList =
        some ("hello".toList, [(['k'], ['2'])])) ∧
      (∀ r ∈ addTextsRecords (fun s : Str => s) 1000 200
          ["hello".toList, "hello".toList]
          (some [[(['k'], ['1'])], [(['k'], ['2'])]]) none,
        r.1 = (fun s : Str => s) r.2.1) :=
  ⟨fun _ _ h => h, by decide,
    (addTexts_content_only (fun s : Str => s) (fun _ _ h => h) 1000 200
      ["hello".toList, "hello".toList]
      (some [[(['k'], ['1'])], [(['k'], ['2'])]]) none).1⟩

/-! ## Batch processing: one ordered result per input (claim C7) -/

theorem processUrl_result_url (hash : Str → Str) (page : PageOutcome)
    (so : Except Str Unit) (url coll : Str) (size overlap : Nat)
    (sn : Option Str) (st : PipelineState) :
    (processUrl hash page so url coll size overlap sn st).1.url = url := by
  unfold processUrl
  cases page.fetch with
  | error e => rfl
  | ok u =>
    cases page.textContent with
    | error e => rfl
    | ok t =>
      by_cases hws : (pyStrip t).isEmpty
      · simp [hws, failureResult]
      · cases so with
        | error e => simp [hws, failureResult]
        | ok v => simp [hws]

theorem processMultipleUrls_length (hash : Str → Str) (coll : Str)
    (size overlap : Nat) (sn : Option Str) (jobs : List UrlJob) :
    ∀ st : PipelineState,
      (processMultipleUrls hash coll size overlap sn jobs st).1.length =
        jobs.length := by
  induction jobs with
  | nil => intro st; rfl
  | cons j rest ih =>
    intro st
    simp only [processMultipleUrls, List.length_cons]
    rw [ih]

theorem processMultipleUrls_getElem (hash : Str → Str) (coll : Str)
    (size overlap : Nat) (sn : Option Str) (jobs : List UrlJob) :
    ∀ (st : PipelineState) (i : Nat),
      (processMultipleUrls hash coll size overlap sn jobs st).1[i]? =
        (jobs[i]?).map (fun j =>
          (processUrl hash j.page j.storeOutcome j.url coll size overlap sn
            (processMultipleUrls hash coll size overlap sn (jobs.take i)
              st).2).1) := by
  induction jobs with
  | nil => intro st i; simp [processMultipleUrls]
  | cons j rest ih =>
    intro st i
    cases i with
    | zero =>
      simp only [processMultipleUrls, List.getElem?_cons_zero, List.take_zero]
      rfl
    | succ n =>
      simp only [processMultipleUrls, List.getElem?_cons_succ,
        List.take_succ_cons]
      rw [ih]

/-- C7: batch ingestion returns exactly one result per input, in input order:
the result list has the length of the job list; the i-th result is exactly
the result of running `process_url` on the i-th job in the pipeline state
threaded through the first i jobs — so a failure while processing job k only
contributes its own failure dictionary (and threaded state) and never
prevents jobs k+1 onward from being processed; and the i-th result carries
the i-th input's url. -/
theorem processMultipleUrls_ordered (hash : Str → Str) (coll : Str)
    (size overlap : Nat) (sn : Option Str) (jobs : List UrlJob)
    (st : PipelineState) :
    ((processMultipleUrls hash coll size overlap sn jobs st).1.length =
      jobs.length) ∧
    (∀ i : Nat,
      (processMultipleUrls hash coll size overlap sn jobs st).1[i]? =
        (jobs[i]?).map (fun j =>
          (processUrl hash j.page j.storeOutcome j.url coll size overlap sn
            (processMultipleUrls hash coll size overlap sn (jobs.take i)
              st).2).1)) ∧
    (∀ i : Nat,
      ((processMultipleUrls hash coll size overlap sn jobs st).1[i]?).map
          UrlResult.url = (jobs[i]?).map UrlJob.url) := by
  refine ⟨processMultipleUrls_length hash coll size overlap sn jobs st,
    processMultipleUrls_getElem hash coll size overlap sn jobs st, ?_⟩
  intro i
  rw [processMultipleUrls_getElem hash coll size overlap sn jobs st i]
  cases hj : jobs[i]? with
  | none => rfl
  | some j => simp [processUrl_result_url]

/-! ## Shared splitter state across calls (claim C4) -/

/-- C4 is violated by the code: `process_url` replaces the shared
`self.text_splitter` only when the requested parameters differ from the
defaults `(1000, 200)` (lines 285-291), so after one call with
`chunk_size = 5, chunk_overlap = 0` a later call that passes the default
parameters `(1000, 200)` silently chunks with the stale `(5, 0)` splitter:
on the eight-character text `abcdefgh` it creates 2 chunks, while the very
same call on a fresh pipeline creates 1 chunk — the chunk-creation step is
not a pure function of its per-call inputs. -/
theorem processUrl_stale_splitter :
    (processUrl id page8 (.ok ()) ['u'] ['c'] 1000 200 none
        (processUrl id samplePage (.ok ()) ['u'] ['c'] 5 0 none
          ⟨initSplitterCfg, []⟩).2).1.chunksCreated = 2 ∧
    (processUrl id page8 (.ok ()) ['u'] ['c'] 1000 200 none
        ⟨initSplitterCfg, []⟩).1.chunksCreated = 1 ∧
    (processUrl id samplePage (.ok ()) ['u'] ['c'] 5 0 none
        ⟨initSplitterCfg, []⟩).2.cfg = ⟨5, 0, procSeparators⟩ ∧
    (processUrl id page8 (.ok ()) ['u'] ['c'] 1000 200 none
        (processUrl id samplePage (.ok ()) ['u'] ['c'] 5 0 none
          ⟨initSplitterCfg, []⟩).2).2.cfg = ⟨5, 0, procSeparators⟩ ∧
    (processUrl id page8 (.ok ()) ['u'] ['c'] 1000 200 none
        (processUrl id samplePage (.ok ()) ['u'] ['c'] 5 0 none
          ⟨initSplitterCfg, []⟩).2).1 ≠
      (processUrl id page8 (.ok ()) ['u'] ['c'] 1000 200 none
        ⟨initSplitterCfg, []⟩).1 := by
  decide

/-! ## No policy validation at construction (claim C5) -/

/-- C5 fails as stated: with `chunk_size = 0` and `chunk_overlap = 0` — a
policy with targetSize ≤ 0 and overlap ≥ targetSize — `process_url` performs
chunking and store work instead of rejecting the policy before any work: on a
page whose text is `ab` it returns success with 2 chunks and the collection
ends up holding 2 records.  No `InvalidPolicyError` (nor any policy check)
exists anywhere in the code. -/
theorem processUrl_invalid_policy_not_rejected :
    (processUrl id pageAB (.ok ()) ['u'] ['c'] 0 0 none
        ⟨initSplitterCfg, []⟩).1.success = true ∧
    (processUrl id pageAB (.ok ()) ['u'] ['c'] 0 0 none
        ⟨initSplitterCfg, []⟩).1.chunksCreated = 2 ∧
    (collGet (processUrl id pageAB (.ok ()) ['u'] ['c'] 0 0 none
        ⟨initSplitterCfg, []⟩).2.store ['c']).length = 2 := by
  decide

/-- C5 (amended): the pipeline performs no policy validation: for every
`chunk_size` and `chunk_overlap` with overlap ≤ size — the region in which
the external splitter constructor performs no check of its own, and which
contains the invalid combinations overlap = targetSize and targetSize = 0 —
an otherwise-successful `process_url` run proceeds through chunking and the
store write and returns success.  Nothing resembling an `InvalidPolicyError`
is raised before work begins, and any exception of the per-call splitter
setup would be caught by the `except` clause and returned as an ordinary
failure result, not propagated. -/
theorem processUrl_accepts_any_policy (hash : Str → Str) (page : PageOutcome)
    (url coll : Str) (size overlap : Nat) (sn : Option Str)
    (st : PipelineState) (t : Str) (_hovl : overlap ≤ size)
    (hfetch : page.fetch = .ok ()) (htext : page.textContent = .ok t)
    (hws : (pyStrip t).isEmpty = false) :
    processUrl hash page (.ok ()) url coll size overlap sn st =
      (⟨true, none, url,
          (createChunks hash (updateCfg st.cfg size overlap) t page.metadata
            sn).chunks.length, t.length⟩,
        ⟨updateCfg st.cfg size overlap,
          saveToChroma st.store coll
            (createChunks hash (updateCfg st.cfg size overlap) t page.metadata
              sn)⟩) := by
  unfold processUrl
  rw [hfetch, htext]
  simp [hws]

/-- Witness for the amended C5 at the invalid policy (0, 0). -/
theorem processUrl_accepts_any_policy_witness :
    (0 : Nat) ≤ 0 ∧ pageAB.fetch = .ok () ∧
      pageAB.textContent = .ok ['a', 'b'] ∧
      (pyStrip ['a', 'b']).isEmpty = false ∧
      processUrl id pageAB (.ok ()) ['u'] ['c'] 0 0 none
          ⟨initSplitterCfg, []⟩ =
        (⟨true, none, ['u'],
            (createChunks id (updateCfg initSplitterCfg 0 0) ['a', 'b']
              pageAB.metadata none).chunks.length, 2⟩,
          ⟨updateCfg initSplitterCfg 0 0,
            saveToChroma [] ['c']
              (createChunks id (updateCfg initSplitterCfg 0 0) ['a', 'b']
                pageAB.metadata none)⟩) :=
  ⟨Nat.le_refl 0, rfl, rfl, by decide,
    processUrl_accepts_any_policy id pageAB ['u'] ['c'] 0 0 none
      ⟨initSplitterCfg, []⟩ ['a', 'b'] (Nat.le_refl 0) rfl rfl (by decide)⟩

end RagByKilo
